import Mathlib

/-!
Shallow embedding of the analysis core of the `bite` reverse-engineering tool:
the demangling cascade and symbol index (crate `symbols`, file
`src/symbols/src/lib.rs`) and the boundary analyzer / block classifier
(crate `processor`, file `src/processor/src/blocks.rs`).

Machine integers are modelled as `Nat` (addresses and byte values; the Rust
code uses `usize`/`u64` and the operations involved never overflow in the
scenarios the claims quantify over; `saturating_sub` coincides with `Nat`
subtraction).  Fallible Rust code returning `Option`/`Result`, and code that
can panic (`unwrap`), is modelled with `Option`, where `none` stands for the
panic or skipped entry as documented at each definition.
-/

set_option maxRecDepth 4000

namespace Bite

/-! Colors and tokens, from `src/tokenizing/src/lib.rs`.  `Color` is egui's
`Color32`, constructed from rgb triples. -/

structure Color where
  r : Nat
  g : Nat
  b : Nat
deriving DecidableEq, Repr

namespace colors

def WHITE : Color := ⟨0xff, 0xff, 0xff⟩
def BLUE : Color := ⟨0x3e, 0xbc, 0xe6⟩
def MAGENTA : Color := ⟨0xf5, 0x12, 0x81⟩
def ORANGE : Color := ⟨0xe6, 0xab, 0x3e⟩
def RED : Color := ⟨0xff, 0x00, 0x0b⟩
def PURPLE : Color := ⟨0x89, 0x1f, 0xff⟩
def GREEN : Color := ⟨0x02, 0xed, 0x6e⟩
def GRAY40 : Color := ⟨0x40, 0x40, 0x40⟩
def GRAY60 : Color := ⟨0x60, 0x60, 0x60⟩

end colors

/-- A rendering token, `tokenizing::Token`: a piece of text with a color.
The `MaybeStatic` distinction (borrowed vs owned text) is erased. -/
structure Token where
  text : String
  color : Color
deriving DecidableEq, Repr

def Token.from_string (text : String) (color : Color) : Token := ⟨text, color⟩

/-- The IBM color scheme of `tokenizing` (`Colors = IBM`): the two accessors
the symbols crate uses. -/
def Colors.item : Color := colors.MAGENTA

def Colors.root : Color := colors.PURPLE

/-! Token streams of the `symbols` crate (`symbols::TokenStream`): a backing
string plus the tokens carved from it.  Its `PartialEq` in the source
compares only the backing string. -/

structure TokenStream where
  inner : String
  tokens : List Token
deriving DecidableEq, Repr

/-- Mirrors `TokenStream::simple`: one token holding the whole string,
colored `Colors::item()`. -/
def TokenStream.simple (s : String) : TokenStream :=
  { inner := s, tokens := [Token.from_string s Colors.item] }

/-! Demangling cascade, `symbols::parser` (`src/symbols/src/lib.rs`).
The four scheme sub-parsers (`rust_legacy`, `itanium`, `rust` v0, `msvc`)
are separate grammars in modules outside `src/`; the spec budgets them
independently, so they are abstracted as parameters: each either accepts an
input and yields a token stream or rejects it with `none`. -/

structure Schemes where
  rust_legacy : String → Option TokenStream
  itanium : String → Option TokenStream
  rust : String → Option TokenStream
  msvc : String → Option TokenStream

/-- Rust's `s.strip_suffix(x).unwrap_or(s)`: drop the suffix when present,
otherwise return the string unchanged (computed over the character list a
Lean string wraps). -/
def dropSuffixIf (s suff : String) : String :=
  if s.data.reverse.take suff.data.length = suff.data.reverse then
    { data := s.data.take (s.data.length - suff.data.length) }
  else s

/-- The suffix stripping at the head of `symbols::parser`: first `$got`,
then `$plt`, then `$pltgot`, each applied to the previous result. -/
def stripDecorations (s : String) : String :=
  dropSuffixIf (dropSuffixIf (dropSuffixIf s "$got") "$plt") "$pltgot"

/-- Mirrors `symbols::parser`: strip decorations, then try the four schemes
in order, falling back to a single plain token of the stripped string. -/
def parser (sch : Schemes) (s : String) : TokenStream :=
  let t := stripDecorations s
  match sch.rust_legacy t with
  | some r => r
  | none =>
    match sch.itanium t with
    | some r => r
    | none =>
      match sch.rust t with
      | some r => r
      | none =>
        match sch.msvc t with
        | some r => r
        | none => TokenStream.simple t

/-- Scheme assignment in which every sub-parser rejects every input; plain
identifiers such as "foo" are rejected by all four real grammars. -/
def allReject : Schemes :=
  ⟨fun _ => none, fun _ => none, fun _ => none, fun _ => none⟩

/-! Functions and the symbol index, `symbols::Function` / `symbols::Index`. -/

structure Function where
  name : TokenStream
  name_as_str : String
  module : Option Token
  intrisic : Bool
deriving DecidableEq, Repr

/-- Mirrors `Function::new`: caches the concatenation of the token texts. -/
def Function.new (name : TokenStream) (module : Option Token) : Function :=
  { name_as_str := String.join (name.tokens.map (fun t => t.text))
    name := name
    module := module
    intrisic := false }

structure Index where
  tree : List (Nat × Function)
  named_len : Nat
deriving DecidableEq, Repr

def Index.new : Index := { tree := [], named_len := 0 }

/-- Mirrors `Index::insert`: push at the end of the vector. -/
def Index.insert (idx : Index) (addr : Nat) (function : Function) : Index :=
  { idx with tree := idx.tree ++ [(addr, function)] }

/-! Sorting and dedup machinery.  `sortLe key` is an insertion sort by a
`Nat` key, a refinement of Rust's `sort_unstable_by_key` (which promises
some sorted permutation; insertion sort is one).  `dedupKeyed key` is Rust's
`Vec::dedup_by_key`: collapse each run of consecutive elements with equal
key to a single element. -/

def insertLe {α : Type} (key : α → Nat) (x : α) : List α → List α
  | [] => [x]
  | y :: ys => if key x ≤ key y then x :: y :: ys else y :: insertLe key x ys

def sortLe {α : Type} (key : α → Nat) : List α → List α
  | [] => []
  | x :: xs => insertLe key x (sortLe key xs)

def dedupRun {α : Type} (key : α → Nat) : α → List α → List α
  | _, [] => []
  | prev, b :: rest =>
    if key prev = key b then dedupRun key prev rest
    else b :: dedupRun key b rest

def dedupKeyed {α : Type} (key : α → Nat) : List α → List α
  | [] => []
  | a :: rest => a :: dedupRun key a rest

/-! Symbol index construction, `Index::parse_debug` (`src/symbols/src/lib.rs`,
lines 117-177).  The input list `symbols` stands for the `(address, name)`
pairs the method collects before inserting anything: the image's native
symbol table entries followed by the PDB public function symbols (the PDB
file handling is I/O outside this core; an image without a resolvable PDB
simply contributes the native entries only).  After inserting them, the
tree is sorted by address, consecutive duplicates are dropped, and one
synthetic "entry" function is inserted (appended) for the entry point. -/

def debugDedupStage (tree : List (Nat × Function)) : List (Nat × Function) :=
  dedupKeyed (fun k => k.1) (sortLe (fun k => k.1) tree)

def Index.parse_debug (sch : Schemes) (symbols : List (Nat × String)) (entrypoint : Nat)
    (idx : Index) : Index :=
  let entry_func := Function.new (TokenStream.simple "entry") none
  let inserted := idx.tree ++ symbols.map (fun p => (p.1, Function.new (parser sch p.2) none))
  { idx with tree := debugDedupStage inserted ++ [(entrypoint, entry_func)] }

/-! ELF import resolution, `Index::parse_elf_imports` (lines 289-353).  The
`object` crate accessors (dynamic relocations, sections, dynamic symbol
table, `data_range`) live outside `src/`; they are modelled from the spec
as plain data: a relocation carries its offset, kind and target symbol
index; a section carries its address range and optional file-resident
bytes; the dynamic symbol table maps a symbol index to an optional name
(`none` collapses the two per-entry failures - unresolvable index and
unreadable name - which the source skips identically). -/

inductive RelocKind where
  | absolute
  | globDat
  | copy
  | jumpSlot
  | other
deriving DecidableEq, Repr

structure ElfReloc where
  r_offset : Nat
  kind : RelocKind
  target : Option Nat
deriving DecidableEq, Repr

structure ElfSec where
  address : Nat
  size : Nat
  data : Option (List Nat)
deriving DecidableEq, Repr

/-- Modelled from the spec: `object`'s `Section::data_range(offset, width)`
returns the file-resident bytes of the given address range when the section
has data covering it. -/
def ElfSec.data_range (s : ElfSec) (off width : Nat) : Option (List Nat) :=
  match s.data with
  | none => none
  | some d =>
    if s.address ≤ off ∧ off + width ≤ s.address + d.length then
      some ((d.drop (off - s.address)).take width)
    else none

/-- Little-endian byte assembly (first byte least significant). -/
def readLE (bs : List Nat) : Nat :=
  bs.foldr (fun b acc => b + 256 * acc) 0

/-- Big-endian byte assembly (first byte most significant). -/
def readBE (bs : List Nat) : Nat :=
  bs.foldl (fun acc b => acc * 256 + b) 0

def readEndian (little : Bool) (bs : List Nat) : Nat :=
  if little then readLE bs else readBE bs

structure ElfInput where
  is64 : Bool
  littleEndian : Bool
  dynRelocs : Option (List ElfReloc)
  sections : List ElfSec
  dynSymTable : Option (Nat → Option String)

/-- The section lookup of the relocation walk:
`obj.sections().find(|s| (s.address()..s.address()+s.size()).contains(&r_offset))`. -/
def elfFindSection (sections : List ElfSec) (off : Nat) : Option ElfSec :=
  sections.find? (fun s => decide (s.address ≤ off) && decide (off < s.address + s.size))

/-- One iteration of the relocation loop: the `(address, Function)` pair the
iteration inserts, or `none` when it skips (no symbol target, no containing
section, unresolvable name, unreadable GOT cell, unknown relocation kind). -/
def elf_reloc_entry (sch : Schemes) (inp : ElfInput) (tbl : Nat → Option String)
    (r : ElfReloc) : Option (Nat × Function) :=
  match r.target with
  | none => none
  | some idx =>
    match elfFindSection inp.sections r.r_offset with
    | none => none
    | some sec =>
      match tbl idx with
      | none => none
      | some name =>
        let phys_addr : Option Nat :=
          match r.kind with
          | .absolute => some r.r_offset
          | .globDat => some r.r_offset
          | .copy => some r.r_offset
          | .jumpSlot =>
            let width := if inp.is64 then 8 else 4
            match sec.data_range r.r_offset width with
            | none => none
            | some bytes =>
              let v := readEndian inp.littleEndian bytes
              some (v - 6)
          | .other => none
        match phys_addr with
        | none => none
        | some addr => some (addr, Function.new (parser sch name) none)

def Index.parse_elf_imports (sch : Schemes) (inp : ElfInput) (idx : Index) : Index :=
  match inp.dynRelocs with
  | none => idx
  | some relocs =>
    match inp.dynSymTable with
    | none => idx
    | some tbl =>
      { idx with tree := idx.tree ++ relocs.filterMap (elf_reloc_entry sch inp tbl) }

/-! PE import resolution, `Index::parse_pe_imports` (lines 225-287).  The
import-descriptor table, thunk tables and hint/name table of the `object`
crate are modelled from the spec as data: `thunks rva` is the thunk table
found at that RVA, `hint_name a` resolves a thunk's address to its
`(hint, name)` pair (`none` collapses the two per-entry failures -
unreadable hint/name and invalid UTF-8 - which the source skips
identically).  `thunk_size` is `size_of::<H::ImageThunkData>()`. -/

structure PeThunkEntry where
  isOrdinal : Bool
  address : Nat
deriving DecidableEq, Repr

structure PeDescriptor where
  module : String
  original_first_thunk : Nat
  first_thunk : Nat
deriving DecidableEq, Repr

structure PeInput where
  thunk_size : Nat
  base : Nat
  descriptors : Option (List PeDescriptor)
  thunks : Nat → List PeThunkEntry
  hint_name : Nat → Option (Nat × String)

/-- The module token built for each import: the descriptor's name with a
leading ".dll" stripped, colored `Colors::root()`. -/
def peModuleToken (d : PeDescriptor) : Token :=
  let m := if d.module.startsWith ".dll" then d.module.drop 4 else d.module
  Token.from_string m Colors.root

/-- One thunk-table entry of descriptor `d` at position `k` (so its slot RVA
is `first_thunk + k * thunk_size`, matching the `func_rva` accumulator that
starts at `first_thunk` and grows by the thunk size every iteration): the
pair the iteration inserts, or `none` when it skips (ordinal entry, or
unresolvable name). -/
def pe_thunk_entry (sch : Schemes) (inp : PeInput) (d : PeDescriptor) (thunk : Nat)
    (k : Nat) (e : PeThunkEntry) : Option (Nat × Function) :=
  if e.isOrdinal then none
  else
    match inp.hint_name e.address with
    | none => none
    | some (hint, name) =>
      let func_rva := d.first_thunk + k * inp.thunk_size
      let phys_addr :=
        if thunk = d.original_first_thunk then hint + inp.base else func_rva + inp.base
      some (phys_addr, Function.new (parser sch name) (some (peModuleToken d)))

/-- All pairs inserted while walking one import descriptor.  The table
walked is the one at `first_thunk`, falling back to `original_first_thunk`
when `first_thunk` is zero. -/
def pe_descriptor_entries (sch : Schemes) (inp : PeInput) (d : PeDescriptor) :
    List (Nat × Function) :=
  let thunk := if d.first_thunk = 0 then d.original_first_thunk else d.first_thunk
  ((inp.thunks thunk).enum).filterMap (fun p => pe_thunk_entry sch inp d thunk p.1 p.2)

def Index.parse_pe_imports (sch : Schemes) (inp : PeInput) (idx : Index) : Index :=
  match inp.descriptors with
  | none => idx
  | some descs =>
    { idx with tree := idx.tree ++ descs.flatMap (pe_descriptor_entries sch inp) }

/-! Format dispatch, `Index::parse_imports` (lines 179-223).  The Mach-O
walk is a no-op in the source; unknown formats insert nothing.  Whatever
the format, the whole tree is re-sorted by address afterwards (and not
deduplicated). -/

inductive ImportInput where
  | elf (inp : ElfInput)
  | pe (inp : PeInput)
  | macho
  | other

def Index.parse_imports (sch : Schemes) (inp : ImportInput) (idx : Index) : Index :=
  let idx' :=
    match inp with
    | .elf e => idx.parse_elf_imports sch e
    | .pe p => idx.parse_pe_imports sch p
    | .macho => idx
    | .other => idx
  { idx' with tree := sortLe (fun k => k.1) idx'.tree }

/-! Processor-side data model (`src/processor/src/blocks.rs` plus the
`processor_shared` and `debugvault` crates it builds on; those two crates
are outside `src/`, so their pieces are modelled from the spec where
noted). -/

/-- Modelled from the spec: `processor_shared::SectionKind`, the closed
enumeration driving boundary and block rules; `other` stands for every
remaining tag handled by the fallback arms. -/
inductive SectionKind where
  | code
  | cstring
  | ptr32
  | ptr64
  | got32
  | got64
  | exceptionDirEntry
  | elf32Sym
  | elf64Sym
  | elf32Dyn
  | elf64Dyn
  | unloaded
  | debug
  | other
deriving DecidableEq, Repr

/-- Modelled from the spec: `processor_shared::Section`, an address range
tagged with a kind and backed by a (possibly empty) byte slice.  The Rust
field `end` is a Lean keyword, rendered `end_`. -/
structure Section where
  name : String
  ident : String
  kind : SectionKind
  start : Nat
  end_ : Nat
  bytes : List Nat
deriving DecidableEq, Repr

/-- Modelled from the spec: `Section::bytes_by_addr(addr, len)` of
`processor_shared`: up to `len` section bytes starting at `addr`, clipped
to the bytes actually available (out-of-range reads degrade rather than
fail). -/
def bytes_by_addr (s : Section) (addr len : Nat) : List Nat :=
  (s.bytes.drop (addr - s.start)).take len

/-- Modelled from the spec: a `debugvault::Symbol` as the block classifier
uses it: a demangled, colorized name.  `Symbol::default()` is the empty
(unresolved) symbol. -/
structure Symbol where
  name : List Token
deriving DecidableEq, Repr

/-- A decoded instruction as the decoder hands it over: its byte width and
its token rendering (`instruction_width` / `instruction_tokens`). -/
structure Inst where
  width : Nat
  tokens : List Token
deriving DecidableEq, Repr

/-- A decode error as the decoder hands it over: its kind (an opaque tag)
and its declared byte width (`err.size()`). -/
structure DecodeError where
  kind : Nat
  size : Nat
deriving DecidableEq, Repr

/-- The state the block code of `Processor` reads: the section catalog, the
image endianness, the decoder's per-address opinions
(`instruction_by_addr` / `error_by_addr` with widths attached), the symbol
index lookup (`index.get_sym_by_addr`), the widest instruction seen, and
the structured-record formatter (`binformat`'s `read_at::<T>` plus
`ToData::to_fields`, external to `src/`, modelled as an abstract
per-address reader returning the record identifier and field rows, or
`none` when the read fails). -/
structure Processor where
  sections : List Section
  endianLittle : Bool
  instruction_by_addr : Nat → Option Inst
  error_by_addr : Nat → Option DecodeError
  symAt : Nat → Option Symbol
  max_instruction_width : Nat
  readRecord : SectionKind → Nat → Option (String × List (Nat × String × String × String))

/-- Modelled from the spec: `Processor::section_by_addr`, locating the
section containing an address (a boundary address may equal the closing
`end` of the last section, so the range is inclusive on both ends). -/
def section_by_addr (p : Processor) (addr : Nat) : Option Section :=
  p.sections.find? (fun s => decide (s.start ≤ addr) && decide (addr ≤ s.end_))

/-! Block contents and blocks (`BlockContent`, `Block`). -/

inductive BlockContent where
  | sectionStart (sec : Section)
  | sectionEnd (sec : Section)
  | label (symbol : Symbol)
  | instruction (inst : List Token) (bytes : String)
  | error (err : Nat) (bytes : String)
  | cstring (bytes : List Nat)
  | got (size : Nat) (symbol : Symbol)
  | pointer (value : Nat) (symbol : Option Symbol)
  | dataStructure (ident : String) (fields : List (Nat × String × String × String))
  | bytes (bytes : List Nat)
deriving DecidableEq, Repr

structure Block where
  addr : Nat
  content : BlockContent
deriving DecidableEq, Repr

def BYTES_BLOCK_SIZE : Nat := 256

/-- Modelled from the spec: `processor_shared::encode_hex_bytes_truncated`,
the hex rendering of raw instruction bytes; only its availability matters
to the claims, not its exact text. -/
def encode_hex_bytes_truncated (bytes : List Nat) (maxWidth : Nat) : String :=
  (String.join (bytes.map (fun b => Nat.toDigits 16 b ++ [' '] |>.asString))).take maxWidth

/-- Mirrors `Processor::get_symbol_by_addr` (blocks.rs lines 190-196): the
index lookup with the section-start suppression that prevents a section
symbol from colliding with a label. -/
def get_symbol_by_addr (p : Processor) (addr : Nat) (sec : Section) : Option Symbol :=
  if addr = sec.start then none else p.symAt addr

/-- Mirrors `Processor::parse_got` (lines 309-315): the symbol owning the
entry, defaulting to the empty symbol when unresolved. -/
def parse_got (p : Processor) (addr size : Nat) (sec : Section) : Block :=
  let symbol := (get_symbol_by_addr p addr sec).getD ⟨[]⟩
  ⟨addr, .got size symbol⟩

/-- Mirrors `Processor::parse_pointer` (lines 317-331).  The source converts
the byte slice with `try_into().unwrap()`, which panics unless exactly
`size` bytes are available: `none` models that panic.  The symbol attached
is `get_symbol_by_addr(addr, section)` - a lookup at the pointer cell's own
address. -/
def parse_pointer (p : Processor) (addr : Nat) (sec : Section) (size : Nat) :
    Option Block :=
  let bytes := bytes_by_addr sec addr size
  if bytes.length = size then
    let value := readEndian p.endianLittle bytes
    some ⟨addr, .pointer value (get_symbol_by_addr p addr sec)⟩
  else none

/-- Mirrors `Processor::parse_cstring` (lines 333-342): bytes from `addr` up
to the first NUL, or all available bytes when none is found. -/
def parse_cstring (addr : Nat) (sec : Section) : Block :=
  let bytes := bytes_by_addr sec addr (2 ^ 64 - 1)
  let stop := ((bytes.findIdx? (fun b => b = 0)).getD bytes.length)
  ⟨addr, .cstring (bytes.take stop)⟩

/-- The scan loop of `Processor::parse_bytes` (lines 391-410): walk `baddr`
forward from `addr` until the section end, an instruction, a decode error
- or a symbol; the source queries `get_symbol_by_addr(addr, section)`, the
fixed query address, at every iteration (not the cursor `baddr`).  Fuel
`sec.end_ - addr` is enough for the loop as the cursor grows by one per
step. -/
def parse_bytes_scan (p : Processor) (sec : Section) (addr : Nat) :
    Nat → Nat → Nat
  | 0, baddr => baddr
  | fuel + 1, baddr =>
    if baddr = sec.end_ then baddr
    else if (p.instruction_by_addr baddr).isSome then baddr
    else if (p.error_by_addr baddr).isSome then baddr
    else if (get_symbol_by_addr p addr sec).isSome then baddr
    else parse_bytes_scan p sec addr fuel (baddr + 1)

/-- Mirrors `Processor::parse_bytes` (lines 390-420): emit one raw-bytes
block over the scanned run, or nothing when the run is empty. -/
def parse_bytes (p : Processor) (addr : Nat) (sec : Section) : List Block :=
  let baddr := parse_bytes_scan p sec addr (sec.end_ - addr) addr
  let bytes_len := baddr - addr
  if bytes_len > 0 then
    [⟨addr, .bytes (bytes_by_addr sec addr bytes_len)⟩]
  else []

/-- Mirrors `Processor::parse_code` (lines 344-388): an optional label (only
when the decoder has an opinion at `addr`), then the instruction, the
decode error, or the raw-bytes fallback. -/
def parse_code (p : Processor) (addr : Nat) (sec : Section) : List Block :=
  let opt_inst := p.instruction_by_addr addr
  let opt_err := p.error_by_addr addr
  let label : List Block :=
    if opt_inst.isSome || opt_err.isSome then
      match get_symbol_by_addr p addr sec with
      | some symbol => [⟨addr, .label symbol⟩]
      | none => []
    else []
  match opt_inst with
  | some inst =>
    let bytes := bytes_by_addr sec addr inst.width
    let hex := encode_hex_bytes_truncated bytes (p.max_instruction_width * 3 + 1)
    label ++ [⟨addr, .instruction inst.tokens hex⟩]
  | none =>
    match opt_err with
    | some err =>
      let bytes := bytes_by_addr sec addr err.size
      let hex := encode_hex_bytes_truncated bytes (p.max_instruction_width * 3 + 1)
      label ++ [⟨addr, .error err.kind hex⟩]
    | none => label ++ parse_bytes p addr sec

/-- Mirrors `Processor::parse_datastructure` (lines 291-307): a structured
record block when the fixed-width read succeeds, nothing otherwise. -/
def parse_datastructure (p : Processor) (addr : Nat) (sec : Section) : List Block :=
  match p.readRecord sec.kind addr with
  | some (ident, fields) => [⟨addr, .dataStructure ident fields⟩]
  | none => []

/-- Mirrors `Processor::parse_blocks` (lines 199-289).  The source unwraps
the section lookup (`self.section_by_addr(addr).unwrap()`): `none` models
that panic, and the `parse_pointer` panic propagates through the pointer
arms.  Every other arm returns blocks. -/
def sectionMarkers (p : Processor) (addr : Nat) : List Block :=
  let section_start := p.sections.find? (fun sec => decide (sec.start = addr))
  let section_end := p.sections.find? (fun sec => decide (sec.end_ = addr))
  match section_start, section_end with
  | some st, some en =>
    [⟨addr, .sectionEnd en⟩, ⟨addr, .sectionStart st⟩] ++
      (if st.bytes.isEmpty then [⟨addr, .sectionEnd st⟩] else [])
  | some st, none => [⟨addr, .sectionStart st⟩]
  | none, some en => [⟨addr, .sectionEnd en⟩]
  | none, none => []

def parse_blocks (p : Processor) (addr : Nat) : Option (List Block) :=
  match section_by_addr p addr with
  | none => none
  | some sec =>
    if sec.kind = SectionKind.unloaded then some [] else
    let markers : List Block := sectionMarkers p addr
    if addr = sec.end_ then some markers else
    match sec.kind with
    | .code => some (markers ++ parse_code p addr sec)
    | .ptr32 => (parse_pointer p addr sec 4).map (fun b => markers ++ [b])
    | .ptr64 => (parse_pointer p addr sec 8).map (fun b => markers ++ [b])
    | .got32 => some (markers ++ [parse_got p addr 4 sec])
    | .got64 => some (markers ++ [parse_got p addr 4 sec])
    | .cstring => some (markers ++ [parse_cstring addr sec])
    | .exceptionDirEntry => some (markers ++ parse_datastructure p addr sec)
    | .elf32Sym => some (markers ++ parse_datastructure p addr sec)
    | .elf64Sym => some (markers ++ parse_datastructure p addr sec)
    | .elf32Dyn => some (markers ++ parse_datastructure p addr sec)
    | .elf64Dyn => some (markers ++ parse_datastructure p addr sec)
    | _ => some (markers ++ [⟨addr, .bytes (bytes_by_addr sec addr BYTES_BLOCK_SIZE)⟩])

/-! Boundary analyzer (`compute_block_boundaries` and helpers, blocks.rs
lines 422-590). -/

/-- The fixed-stride boundary loops (`while addr < end { push; addr += step }`)
used for pointer, GOT, structured-record and fallback sections.  The source
strides are all positive constants; a zero stride would loop forever in the
source and yields the empty list here. -/
def stepAux (stop step : Nat) : Nat → Nat → List Nat
  | 0, _ => []
  | fuel + 1, addr =>
    if addr < stop ∧ 0 < step then addr :: stepAux stop step fuel (addr + step)
    else []

def stepBoundaries (stop step addr : Nat) : List Nat :=
  stepAux stop step (stop - addr) addr

/-- The scan loop inside `compute_code_boundaries` (lines 548-568): walk
`baddr` forward until the section end, an instruction, a decode error, or a
symbol at an address other than `addr` itself.  Fuel-driven: the callers
pass enough fuel for the loop to hit one of its exits. -/
def codeScan (p : Processor) (stop addr : Nat) : Nat → Nat → Nat
  | 0, baddr => baddr
  | fuel + 1, baddr =>
    if baddr = stop then baddr
    else if (p.instruction_by_addr baddr).isSome then baddr
    else if (p.error_by_addr baddr).isSome then baddr
    else if addr ≠ baddr ∧ (p.symAt baddr).isSome then baddr
    else codeScan p stop addr fuel (baddr + 1)

/-- The outer loop of `compute_code_boundaries` (lines 524-576), fuel-driven.
Each iteration pushes a boundary for a symbol found exactly at the cursor,
then a boundary plus a stride for an instruction or decode error, and
otherwise one boundary for the raw run found by the scan.  When the decoder
reports well-formed widths the fuel `stop - start` is enough; on a decoder
that strides past the section end the source loops forever, while this
model stops when the fuel runs out. -/
def codeBoundariesAux (p : Processor) (stop : Nat) : Nat → Nat → List Nat
  | 0, _ => []
  | fuel + 1, addr =>
    if addr = stop then []
    else
      let symB := if (p.symAt addr).isSome then [addr] else []
      match p.instruction_by_addr addr with
      | some inst => symB ++ addr :: codeBoundariesAux p stop fuel (addr + inst.width)
      | none =>
        match p.error_by_addr addr with
        | some err => symB ++ addr :: codeBoundariesAux p stop fuel (addr + err.size)
        | none =>
          let baddr := codeScan p stop addr (stop - addr) addr
          if addr < baddr then symB ++ addr :: codeBoundariesAux p stop fuel baddr
          else symB ++ codeBoundariesAux p stop fuel addr

def compute_code_boundaries (p : Processor) (sec : Section) : List Nat :=
  codeBoundariesAux p sec.end_ (sec.end_ - sec.start) sec.start

/-- Mirrors `compute_cstring_boundaries` (lines 578-590): walk the section
bytes with their index; at each NUL byte push a boundary for the string
that started at `start_off`, unless the string is empty (two consecutive
NULs), then restart just past the NUL. -/
def cstringScan (sectionStart : Nat) : Nat → Nat → List Nat → List Nat
  | _, _, [] => []
  | idx, start_off, b :: rest =>
    if b = 0 then
      (if idx ≠ start_off then [sectionStart + start_off] else []) ++
        cstringScan sectionStart (idx + 1) (idx + 1) rest
    else cstringScan sectionStart (idx + 1) start_off rest

def compute_cstring_boundaries (sec : Section) : List Nat :=
  cstringScan sec.start 0 0 sec.bytes

/-- Record sizes used by the structured-record strides:
`size_of::<ExceptionDirectoryEntry>() = 12`, `size_of::<Elf32Sym>() = 16`,
`size_of::<Elf64Sym>() = 24`, `size_of::<Elf32Dyn>() = 8`,
`size_of::<Elf64Dyn>() = 16`. -/
def recordSize (k : SectionKind) : Nat :=
  match k with
  | .exceptionDirEntry => 12
  | .elf32Sym => 16
  | .elf64Sym => 24
  | .elf32Dyn => 8
  | .elf64Dyn => 16
  | _ => BYTES_BLOCK_SIZE

/-- Mirrors `compute_section_boundaries` (lines 441-522): nothing for
`Unloaded`/`Debug` sections; exactly `{start, end}` for sections with no
file-resident bytes; otherwise `start`, the per-kind boundaries, then
`end`. -/
def compute_section_boundaries (p : Processor) (sec : Section) : List Nat :=
  if sec.kind = SectionKind.unloaded ∨ sec.kind = SectionKind.debug then []
  else if sec.bytes.isEmpty then [sec.start, sec.end_]
  else
    sec.start ::
      ((match sec.kind with
        | .code => compute_code_boundaries p sec
        | .cstring => compute_cstring_boundaries sec
        | .ptr32 => stepBoundaries sec.end_ 4 sec.start
        | .got32 => stepBoundaries sec.end_ 4 sec.start
        | .ptr64 => stepBoundaries sec.end_ 8 sec.start
        | .got64 => stepBoundaries sec.end_ 8 sec.start
        | k => stepBoundaries sec.end_ (recordSize k) sec.start) ++
        [sec.end_])

/-- Mirrors `compute_block_boundaries` (lines 423-439): per-section results
concatenated in catalog order (the scoped threads are joined in spawn
order), then sorted and deduplicated. -/
def compute_block_boundaries (p : Processor) : List Nat :=
  dedupKeyed (fun a => a) (sortLe (fun a => a) (p.sections.flatMap (fun sec => compute_section_boundaries p sec)))

/-! Properties of the sorting and dedup machinery. -/

theorem mem_insertLe {α : Type} (key : α → Nat) (x : α) (l : List α) (a : α) :
    a ∈ insertLe key x l ↔ a = x ∨ a ∈ l := by
  induction l with
  | nil => simp [insertLe]
  | cons y ys ih =>
    by_cases h : key x ≤ key y
    · simp [insertLe, h]
    · simp only [insertLe, if_neg h, List.mem_cons, ih]
      tauto

theorem mem_sortLe {α : Type} (key : α → Nat) (l : List α) (a : α) :
    a ∈ sortLe key l ↔ a ∈ l := by
  induction l with
  | nil => simp [sortLe]
  | cons x xs ih => simp [sortLe, mem_insertLe, ih]

theorem sorted_insertLe {α : Type} (key : α → Nat) (x : α) (l : List α)
    (hl : l.Pairwise (fun a b => key a ≤ key b)) :
    (insertLe key x l).Pairwise (fun a b => key a ≤ key b) := by
  induction l with
  | nil => simp [insertLe]
  | cons y ys ih =>
    rcases List.pairwise_cons.mp hl with ⟨hy, hys⟩
    by_cases h : key x ≤ key y
    · rw [insertLe, if_pos h]
      refine List.pairwise_cons.mpr ⟨?_, hl⟩
      intro b hb
      rcases List.mem_cons.mp hb with rfl | hb'
      · exact h
      · exact le_trans h (hy b hb')
    · rw [insertLe, if_neg h]
      refine List.pairwise_cons.mpr ⟨?_, ih hys⟩
      intro b hb
      rcases (mem_insertLe key x ys b).mp hb with rfl | hb'
      · omega
      · exact hy b hb'

theorem sorted_sortLe {α : Type} (key : α → Nat) (l : List α) :
    (sortLe key l).Pairwise (fun a b => key a ≤ key b) := by
  induction l with
  | nil => simp [sortLe]
  | cons x xs ih => exact sorted_insertLe key x _ ih

theorem dedupRun_subset {α : Type} (key : α → Nat) (l : List α) :
    ∀ prev, ∀ a ∈ dedupRun key prev l, a ∈ l := by
  induction l with
  | nil => simp [dedupRun]
  | cons b rest ih =>
    intro prev a ha
    rw [dedupRun] at ha
    by_cases h : key prev = key b
    · rw [if_pos h] at ha
      exact List.mem_cons_of_mem b (ih prev a ha)
    · rw [if_neg h] at ha
      rcases List.mem_cons.mp ha with rfl | ha'
      · exact List.mem_cons_self _ _
      · exact List.mem_cons_of_mem b (ih b a ha')

theorem dedupKeyed_subset {α : Type} (key : α → Nat) (l : List α) :
    ∀ a ∈ dedupKeyed key l, a ∈ l := by
  cases l with
  | nil => simp [dedupKeyed]
  | cons a rest =>
    intro x hx
    rcases List.mem_cons.mp hx with rfl | hx'
    · exact List.mem_cons_self _ _
    · exact List.mem_cons_of_mem a (dedupRun_subset key rest a x hx')

theorem mem_dedupRun {α : Type} (key : α → Nat)
    (hinj : ∀ x y : α, key x = key y → x = y) (l : List α) :
    ∀ prev, ∀ a ∈ l, a ∈ prev :: dedupRun key prev l := by
  induction l with
  | nil => simp
  | cons b rest ih =>
    intro prev a ha
    rw [dedupRun]
    by_cases h : key prev = key b
    · rw [if_pos h]
      have hpb : prev = b := hinj prev b h
      rcases List.mem_cons.mp ha with rfl | ha'
      · rw [hpb]; exact List.mem_cons_self _ _
      · exact ih prev a ha'
    · rw [if_neg h]
      rcases List.mem_cons.mp ha with rfl | ha'
      · exact List.mem_cons_of_mem prev (List.mem_cons_self _ _)
      · have := ih b a ha'
        rcases List.mem_cons.mp this with rfl | h2
        · exact List.mem_cons_of_mem prev (List.mem_cons_self _ _)
        · exact List.mem_cons_of_mem prev (List.mem_cons_of_mem b h2)

theorem mem_dedupKeyed {α : Type} (key : α → Nat)
    (hinj : ∀ x y : α, key x = key y → x = y) (l : List α) (a : α) :
    a ∈ dedupKeyed key l ↔ a ∈ l := by
  constructor
  · exact dedupKeyed_subset key l a
  · cases l with
    | nil => simp
    | cons b rest =>
      intro ha
      rw [dedupKeyed]
      rcases List.mem_cons.mp ha with rfl | ha'
      · exact List.mem_cons_self _ _
      · exact mem_dedupRun key hinj rest b a ha'

theorem pairwise_dedupRun {α : Type} (key : α → Nat) (l : List α) :
    ∀ prev, (prev :: l).Pairwise (fun a b => key a ≤ key b) →
      (dedupRun key prev l).Pairwise (fun a b => key a < key b) ∧
      ∀ y ∈ dedupRun key prev l, key prev < key y := by
  induction l with
  | nil => simp [dedupRun]
  | cons b rest ih =>
    intro prev hp
    rw [dedupRun]
    by_cases h : key prev = key b
    · rw [if_pos h]
      refine ih prev ?_
      exact hp.sublist (List.cons_sublist_cons.mpr (List.sublist_cons_self b rest))
    · rw [if_neg h]
      have hp' : (b :: rest).Pairwise (fun a b => key a ≤ key b) :=
        (List.pairwise_cons.mp hp).2
      have hprevb : key prev < key b :=
        lt_of_le_of_ne ((List.pairwise_cons.mp hp).1 b (List.mem_cons_self _ _)) h
      rcases ih b hp' with ⟨hpw, hbound⟩
      refine ⟨List.pairwise_cons.mpr ⟨hbound, hpw⟩, ?_⟩
      intro y hy
      rcases List.mem_cons.mp hy with rfl | hy'
      · exact hprevb
      · exact lt_trans hprevb (hbound y hy')

theorem pairwise_dedupKeyed {α : Type} (key : α → Nat) (l : List α)
    (hl : l.Pairwise (fun a b => key a ≤ key b)) :
    (dedupKeyed key l).Pairwise (fun a b => key a < key b) := by
  cases l with
  | nil => simp [dedupKeyed]
  | cons a rest =>
    rw [dedupKeyed]
    rcases pairwise_dedupRun key rest a hl with ⟨hpw, hbound⟩
    exact List.pairwise_cons.mpr ⟨hbound, hpw⟩

/-! Properties of the boundary pipeline. -/

theorem boundaries_pairwise_lt (p : Processor) :
    (compute_block_boundaries p).Pairwise (· < ·) := by
  unfold compute_block_boundaries
  exact pairwise_dedupKeyed (fun a => a) _ (sorted_sortLe (fun a => a) _)

theorem mem_compute_block_boundaries (p : Processor) (a : Nat) :
    a ∈ compute_block_boundaries p ↔
      ∃ sec ∈ p.sections, a ∈ compute_section_boundaries p sec := by
  unfold compute_block_boundaries
  rw [mem_dedupKeyed (fun a => a) (fun _ _ h => h), mem_sortLe, List.mem_flatMap]

theorem start_mem_section_boundaries (p : Processor) (sec : Section)
    (h1 : sec.kind ≠ SectionKind.unloaded) (h2 : sec.kind ≠ SectionKind.debug) :
    sec.start ∈ compute_section_boundaries p sec := by
  unfold compute_section_boundaries
  rw [if_neg (by tauto)]
  by_cases hb : sec.bytes.isEmpty
  · simp [hb]
  · simp [hb]

theorem end_mem_section_boundaries (p : Processor) (sec : Section)
    (h1 : sec.kind ≠ SectionKind.unloaded) (h2 : sec.kind ≠ SectionKind.debug) :
    sec.end_ ∈ compute_section_boundaries p sec := by
  unfold compute_section_boundaries
  rw [if_neg (by tauto)]
  by_cases hb : sec.bytes.isEmpty
  · simp [hb]
  · simp [hb]

/-! Claim C3: the boundary set contract. -/

/-- An `Unloaded` section, as found in a catalog with e.g. a `.bss`. -/
def c3cexSec : Section := ⟨".bss", "b", SectionKind.unloaded, 0, 4, []⟩

def c3cexProc : Processor :=
  { sections := [c3cexSec]
    endianLittle := true
    instruction_by_addr := fun _ => none
    error_by_addr := fun _ => none
    symAt := fun _ => none
    max_instruction_width := 4
    readRecord := fun _ _ => none }

/-- C3, counterexample: the claim says every section of ANY `SectionKind`
contributes its start and end to the final boundary set, but
`compute_section_boundaries` returns nothing at all for `Unloaded` (and
`Debug`) sections: in a catalog holding one `Unloaded` section spanning
`[0, 4]`, the final boundary set is empty and contains neither endpoint. -/
theorem C3_counterexample :
    c3cexSec ∈ c3cexProc.sections ∧
    compute_block_boundaries c3cexProc = [] ∧
    c3cexSec.start ∉ compute_block_boundaries c3cexProc := by
  refine ⟨by decide, by decide, by decide⟩

/-- C3 (amended): `compute_block_boundaries` returns a sorted, deduplicated
(strictly increasing) sequence of addresses that, for every section of the
catalog whose kind is neither `Unloaded` nor `Debug`, contains both the
section's start and its end; such a section whose backing bytes are empty
contributes exactly the two addresses start and end. -/
theorem C3_amended (p : Processor) :
    (compute_block_boundaries p).Pairwise (· < ·) ∧
    ∀ sec ∈ p.sections,
      sec.kind ≠ SectionKind.unloaded → sec.kind ≠ SectionKind.debug →
        sec.start ∈ compute_block_boundaries p ∧
        sec.end_ ∈ compute_block_boundaries p ∧
        (sec.bytes.isEmpty → compute_section_boundaries p sec = [sec.start, sec.end_]) := by
  refine ⟨boundaries_pairwise_lt p, ?_⟩
  intro sec hs h1 h2
  refine ⟨?_, ?_, ?_⟩
  · exact (mem_compute_block_boundaries p _).mpr
      ⟨sec, hs, start_mem_section_boundaries p sec h1 h2⟩
  · exact (mem_compute_block_boundaries p _).mpr
      ⟨sec, hs, end_mem_section_boundaries p sec h1 h2⟩
  · intro hb
    unfold compute_section_boundaries
    rw [if_neg (by tauto), if_pos hb]

/-- A CString section with no backing bytes, for the C3 witness. -/
def c3wSec : Section := ⟨".rodata", "r", SectionKind.cstring, 0, 4, []⟩

def c3wProc : Processor :=
  { sections := [c3wSec]
    endianLittle := true
    instruction_by_addr := fun _ => none
    error_by_addr := fun _ => none
    symAt := fun _ => none
    max_instruction_width := 4
    readRecord := fun _ _ => none }

/-- C3, witness: the amended claim applied to a one-section catalog holding
an empty CString section spanning `[0, 4]`. -/
theorem C3_witness :
    (0 : Nat) ∈ compute_block_boundaries c3wProc ∧
    (4 : Nat) ∈ compute_block_boundaries c3wProc ∧
    compute_section_boundaries c3wProc c3wSec = [0, 4] := by
  have h := (C3_amended c3wProc).2 c3wSec (by decide) (by decide) (by decide)
  exact ⟨h.1, h.2.1, h.2.2 (by decide)⟩

/-! Claim C4: boundaries of Code sections. -/

/-- Decoder well-formedness at one address: any instruction or decode error
reported there has a positive byte width and stays inside the section.  On
a decoder violating this the source's boundary loop would never terminate
(it strides past `end` and scans forever), so the claims about Code
boundaries are read under this hypothesis. -/
def decoderOkAt (p : Processor) (stop a : Nat) : Bool :=
  (match p.instruction_by_addr a with
   | some i => decide (0 < i.width) && decide (a + i.width ≤ stop)
   | none => true) &&
  (match p.error_by_addr a with
   | some e => decide (0 < e.size) && decide (a + e.size ≤ stop)
   | none => true)

def decoderSane (p : Processor) (sec : Section) : Prop :=
  ∀ a, a < sec.end_ → sec.start ≤ a → decoderOkAt p sec.end_ a = true

theorem decoderSane_inst (p : Processor) (sec : Section) (hdec : decoderSane p sec)
    (a : Nat) (h1 : sec.start ≤ a) (h2 : a < sec.end_) (i : Inst)
    (hi : p.instruction_by_addr a = some i) :
    0 < i.width ∧ a + i.width ≤ sec.end_ := by
  have := hdec a h2 h1
  rw [decoderOkAt, hi] at this
  simp only [Bool.and_eq_true, decide_eq_true_eq] at this
  exact this.1

theorem decoderSane_err (p : Processor) (sec : Section) (hdec : decoderSane p sec)
    (a : Nat) (h1 : sec.start ≤ a) (h2 : a < sec.end_) (e : DecodeError)
    (he : p.error_by_addr a = some e) :
    0 < e.size ∧ a + e.size ≤ sec.end_ := by
  have := hdec a h2 h1
  rw [decoderOkAt, he] at this
  simp only [Bool.and_eq_true, decide_eq_true_eq] at this
  exact this.2

/-- An address lying strictly inside the byte span of an instruction or
decode error that the decoder reports somewhere in the section. -/
def insideSpan (p : Processor) (sec : Section) (a : Nat) : Prop :=
  ∃ b, sec.start ≤ b ∧ b < sec.end_ ∧
    ((∃ i, p.instruction_by_addr b = some i ∧ b < a ∧ a < b + i.width) ∨
     (∃ e, p.error_by_addr b = some e ∧ b < a ∧ a < b + e.size))

theorem codeScan_ge (p : Processor) (stop addr : Nat) :
    ∀ fuel baddr, baddr ≤ codeScan p stop addr fuel baddr := by
  intro fuel
  induction fuel with
  | zero => intro baddr; simp [codeScan]
  | succ f ih =>
    intro baddr
    rw [codeScan]
    split
    · exact le_refl _
    · split
      · exact le_refl _
      · split
        · exact le_refl _
        · split
          · exact le_refl _
          · exact le_trans (Nat.le_succ baddr) (ih (baddr + 1))

theorem codeScan_le_stop (p : Processor) (stop addr : Nat) :
    ∀ fuel baddr, baddr ≤ stop → codeScan p stop addr fuel baddr ≤ stop := by
  intro fuel
  induction fuel with
  | zero => intro baddr h; simpa [codeScan] using h
  | succ f ih =>
    intro baddr h
    rw [codeScan]
    split
    · exact h
    · split
      · exact h
      · split
        · exact h
        · split
          · exact h
          · rename_i hstop _ _ _
            exact ih (baddr + 1) (by omega)

theorem codeScan_interior (p : Processor) (stop addr : Nat) :
    ∀ fuel baddr b, baddr ≤ b → b < codeScan p stop addr fuel baddr →
      p.instruction_by_addr b = none ∧ p.error_by_addr b = none ∧
        (b ≠ addr → p.symAt b = none) := by
  intro fuel
  induction fuel with
  | zero => intro baddr b h1 h2; rw [codeScan] at h2; omega
  | succ f ih =>
    intro baddr b h1 h2
    rw [codeScan] at h2
    split at h2
    · omega
    · split at h2
      · omega
      · split at h2
        · omega
        · split at h2
          · omega
          · rcases Nat.eq_or_lt_of_le h1 with heq | hlt
            · subst heq
              rename_i hinst herr hsym
              refine ⟨?_, ?_, ?_⟩
              · exact Option.not_isSome_iff_eq_none.mp hinst
              · exact Option.not_isSome_iff_eq_none.mp herr
              · intro hne
                by_cases hs : (p.symAt baddr).isSome
                · exact absurd ⟨fun h => hne h.symm, hs⟩ hsym
                · exact Option.not_isSome_iff_eq_none.mp hs
            · exact ih (baddr + 1) b hlt h2

theorem codeScan_progress (p : Processor) (stop addr : Nat)
    (h1 : addr < stop) (h2 : p.instruction_by_addr addr = none)
    (h3 : p.error_by_addr addr = none) :
    addr < codeScan p stop addr (stop - addr) addr := by
  have hf : stop - addr = (stop - addr - 1) + 1 := by omega
  rw [hf, codeScan]
  rw [if_neg (by omega), if_neg (by simp [h2]), if_neg (by simp [h3]),
    if_neg (by simp)]
  exact lt_of_lt_of_le (Nat.lt_succ_self addr) (codeScan_ge p stop addr _ (addr + 1))

theorem codeAux_covers (p : Processor) (sec : Section) (hdec : decoderSane p sec) :
    ∀ fuel addr a, sec.start ≤ addr → addr ≤ sec.end_ → sec.end_ - addr ≤ fuel →
      addr ≤ a → a < sec.end_ → (p.symAt a).isSome → ¬ insideSpan p sec a →
      a ∈ codeBoundariesAux p sec.end_ fuel addr := by
  intro fuel
  induction fuel with
  | zero => intro addr a h1 h2 h3 h4 h5 _ _; omega
  | succ f ih =>
    intro addr a h1 h2 h3 h4 h5 hsym hnin
    have haddr : addr ≠ sec.end_ := by omega
    have haddrlt : addr < sec.end_ := by omega
    rw [codeBoundariesAux, if_neg haddr]
    by_cases ha : a = addr
    · subst ha
      rcases hi : p.instruction_by_addr a with _ | i
      · rcases he : p.error_by_addr a with _ | e
        · dsimp only
          rw [if_pos hsym]
          split
          · exact List.mem_append_left _ (List.mem_singleton.mpr rfl)
          · exact List.mem_append_left _ (List.mem_singleton.mpr rfl)
        · dsimp only
          rw [if_pos hsym]
          exact List.mem_append_left _ (List.mem_singleton.mpr rfl)
      · dsimp only
        rw [if_pos hsym]
        exact List.mem_append_left _ (List.mem_singleton.mpr rfl)
    · have ha' : addr < a := by omega
      rcases hi : p.instruction_by_addr addr with _ | i
      · rcases he : p.error_by_addr addr with _ | e
        · dsimp only
          have hprog : addr < codeScan p sec.end_ addr (sec.end_ - addr) addr :=
            codeScan_progress p sec.end_ addr haddrlt hi he
          have hstop : codeScan p sec.end_ addr (sec.end_ - addr) addr ≤ sec.end_ :=
            codeScan_le_stop p sec.end_ addr _ addr h2
          rw [if_pos hprog]
          by_cases hlt : a < codeScan p sec.end_ addr (sec.end_ - addr) addr
          · exfalso
            have hint := codeScan_interior p sec.end_ addr (sec.end_ - addr) addr a h4 hlt
            have hnone := hint.2.2 (by omega)
            rw [hnone] at hsym
            simp at hsym
          · have hrec := ih (codeScan p sec.end_ addr (sec.end_ - addr) addr) a
              (by omega) hstop (by omega) (by omega) h5 hsym hnin
            exact List.mem_append_right _ (List.mem_cons_of_mem _ hrec)
        · dsimp only
          rcases decoderSane_err p sec hdec addr h1 haddrlt e he with ⟨hw, hbound⟩
          by_cases hlt : a < addr + e.size
          · exact absurd ⟨addr, h1, haddrlt, Or.inr ⟨e, he, ha', hlt⟩⟩ hnin
          · have hrec := ih (addr + e.size) a (by omega) hbound (by omega) (by omega)
              h5 hsym hnin
            exact List.mem_append_right _ (List.mem_cons_of_mem _ hrec)
      · dsimp only
        rcases decoderSane_inst p sec hdec addr h1 haddrlt i hi with ⟨hw, hbound⟩
        by_cases hlt : a < addr + i.width
        · exact absurd ⟨addr, h1, haddrlt, Or.inl ⟨i, hi, ha', hlt⟩⟩ hnin
        · have hrec := ih (addr + i.width) a (by omega) hbound (by omega) (by omega)
            h5 hsym hnin
          exact List.mem_append_right _ (List.mem_cons_of_mem _ hrec)

/-- The final boundary sequence restricted to one section's address range
`[start, end]`: the per-section view a renderer sees of
`compute_block_boundaries`. -/
def codeSectionView (p : Processor) (sec : Section) : List Nat :=
  (compute_block_boundaries p).filter
    (fun a => decide (sec.start ≤ a) && decide (a ≤ sec.end_))

/-- C4 (amended): for every Code section with file-resident bytes and a
decoder whose reported widths are positive and in-bounds, the boundary
sequence restricted to the section is strictly increasing, begins at
`section.start`, ends at `section.end`, and every address in the section at
which the Symbol Index holds a function appears in it - EXCEPT addresses
falling strictly inside the byte span of an instruction or decode error
reported by the decoder, which the boundary scan strides over without
visiting (the claim's parenthetical asserts the opposite). -/
theorem C4_amended (p : Processor) (sec : Section)
    (hmem : sec ∈ p.sections) (hkind : sec.kind = SectionKind.code)
    (hbytes : sec.bytes.isEmpty = false) (hwf : sec.start ≤ sec.end_)
    (hdec : decoderSane p sec) :
    (codeSectionView p sec).Pairwise (· < ·) ∧
    sec.start ∈ codeSectionView p sec ∧
    sec.end_ ∈ codeSectionView p sec ∧
    (∀ b ∈ codeSectionView p sec, sec.start ≤ b ∧ b ≤ sec.end_) ∧
    (∀ a, sec.start ≤ a → a < sec.end_ → (p.symAt a).isSome →
      ¬ insideSpan p sec a → a ∈ codeSectionView p sec) := by
  have hknu : sec.kind ≠ SectionKind.unloaded := by rw [hkind]; intro h; cases h
  have hknd : sec.kind ≠ SectionKind.debug := by rw [hkind]; intro h; cases h
  refine ⟨?_, ?_, ?_, ?_, ?_⟩
  · exact List.Pairwise.sublist (List.filter_sublist _) (boundaries_pairwise_lt p)
  · refine List.mem_filter.mpr ⟨?_, ?_⟩
    · exact (mem_compute_block_boundaries p _).mpr
        ⟨sec, hmem, start_mem_section_boundaries p sec hknu hknd⟩
    · simp [hwf]
  · refine List.mem_filter.mpr ⟨?_, ?_⟩
    · exact (mem_compute_block_boundaries p _).mpr
        ⟨sec, hmem, end_mem_section_boundaries p sec hknu hknd⟩
    · simp [hwf]
  · intro b hb
    have := (List.mem_filter.mp hb).2
    simp only [Bool.and_eq_true, decide_eq_true_eq] at this
    exact this
  · intro a h1 h2 h3 h4
    have haux : a ∈ compute_code_boundaries p sec := by
      unfold compute_code_boundaries
      exact codeAux_covers p sec hdec (sec.end_ - sec.start) sec.start a
        (le_refl _) hwf (le_refl _) h1 h2 h3 h4
    have hsec : a ∈ compute_section_boundaries p sec := by
      unfold compute_section_boundaries
      rw [if_neg (by tauto), if_neg (by rw [hbytes]; intro h; cases h), hkind]
      exact List.mem_cons_of_mem _ (List.mem_append_left _ haux)
    refine List.mem_filter.mpr ⟨?_, ?_⟩
    · exact (mem_compute_block_boundaries p _).mpr ⟨sec, hmem, hsec⟩
    · simp [h1, le_of_lt h2]

/-- A Code section whose single instruction (width 4 at address 0) spans a
symbol sitting at address 1. -/
def c4cexSec : Section := ⟨".text", "t", SectionKind.code, 0, 4, [0x90, 0x90, 0x90, 0x90]⟩

def c4cexProc : Processor :=
  { sections := [c4cexSec]
    endianLittle := true
    instruction_by_addr := fun a => if a = 0 then some ⟨4, []⟩ else none
    error_by_addr := fun _ => none
    symAt := fun a => if a = 1 then some ⟨[⟨"inner", colors.WHITE⟩]⟩ else none
    max_instruction_width := 4
    readRecord := fun _ _ => none }

/-- C4, counterexample: the claim says every address holding a symbol
appears in the boundary sequence, INCLUDING addresses strictly inside a
decoded instruction's byte span; but with an instruction of width 4 at
address 0 and a symbol at address 1 the boundary scan strides from 0
straight to 4 and the boundary set is `[0, 4]` - address 1 never appears. -/
theorem C4_counterexample :
    (c4cexProc.symAt 1).isSome ∧
    c4cexSec ∈ c4cexProc.sections ∧ c4cexSec.kind = SectionKind.code ∧
    c4cexSec.start ≤ 1 ∧ 1 < c4cexSec.end_ ∧
    compute_block_boundaries c4cexProc = [0, 4] ∧
    1 ∉ compute_block_boundaries c4cexProc := by decide

/-- A Code section with two one-byte instructions and a symbol on the
second, for the C4 witness. -/
def c4wSec : Section := ⟨".text", "t", SectionKind.code, 0, 2, [0x90, 0x90]⟩

def c4wProc : Processor :=
  { sections := [c4wSec]
    endianLittle := true
    instruction_by_addr := fun a => if a < 2 then some ⟨1, []⟩ else none
    error_by_addr := fun _ => none
    symAt := fun a => if a = 1 then some ⟨[⟨"f", colors.WHITE⟩]⟩ else none
    max_instruction_width := 1
    readRecord := fun _ _ => none }

/-- C4, witness: the amended claim applied to the two-instruction section;
the symbol address 1 is not inside any span and duly appears in the
section's boundary view. -/
theorem C4_witness :
    decoderSane c4wProc c4wSec ∧ (1 : Nat) ∈ codeSectionView c4wProc c4wSec := by
  have hdec : decoderSane c4wProc c4wSec := by unfold decoderSane; decide
  refine ⟨hdec, ?_⟩
  refine (C4_amended c4wProc c4wSec (by decide) (by decide) (by decide) (by decide)
    hdec).2.2.2.2 1 (by decide) (by decide) (by decide) ?_
  rintro ⟨b, hb1, hb2, hcase⟩
  have hb : b = 0 ∨ b = 1 := by
    have : c4wSec.end_ = 2 := rfl
    omega
  rcases hcase with ⟨i, hi, hlt1, hlt2⟩ | ⟨e, he, hlt1, hlt2⟩
  · rcases hb with rfl | rfl
    · have h0 : c4wProc.instruction_by_addr 0 = some ⟨1, []⟩ := rfl
      rw [h0] at hi
      rw [← Option.some_inj.mp hi] at hlt2
      exact absurd hlt2 (by decide)
    · omega
  · rcases hb with rfl | rfl
    · exact Option.noConfusion (show (none : Option DecodeError) = some e from he)
    · exact Option.noConfusion (show (none : Option DecodeError) = some e from he)

/-! Claim C1: failure semantics of `parse_blocks`. -/

/-- A processor with an empty section catalog: every address is unmapped. -/
def c1cexProc : Processor :=
  { sections := []
    endianLittle := true
    instruction_by_addr := fun _ => none
    error_by_addr := fun _ => none
    symAt := fun _ => none
    max_instruction_width := 4
    readRecord := fun _ _ => none }

/-- C1, counterexample: the claim says `parse_blocks` on an unmapped address
returns an empty block list and never panics, but the source runs
`self.section_by_addr(addr).unwrap()`, which panics when no section
contains the address (`none` in the model); at address 7 of an empty
catalog, the section lookup is `none` and `parse_blocks` panics instead of
returning `some []`. -/
theorem C1_counterexample :
    section_by_addr c1cexProc 7 = none ∧ parse_blocks c1cexProc 7 = none := by decide

/-- C1 (amended): `parse_blocks` panics (unwraps a `None`) on addresses
contained in no section, and its Ptr32/Ptr64 dispatch panics (on the
`try_into().unwrap()` slice conversion) when fewer than the pointer width
of bytes is available at the address; on an address mapped to a section -
with a full-width cell available when the section is a pointer kind - it
returns a block list without panicking, and an `Unloaded` section yields
the empty list. -/
theorem C1_amended (p : Processor) (addr : Nat) (sec : Section)
    (hfind : section_by_addr p addr = some sec)
    (h32 : sec.kind = SectionKind.ptr32 →
      addr = sec.end_ ∨ (bytes_by_addr sec addr 4).length = 4)
    (h64 : sec.kind = SectionKind.ptr64 →
      addr = sec.end_ ∨ (bytes_by_addr sec addr 8).length = 8) :
    (∃ bs, parse_blocks p addr = some bs) ∧
    (sec.kind = SectionKind.unloaded → parse_blocks p addr = some []) := by
  unfold parse_blocks
  rw [hfind]
  dsimp only
  constructor
  · by_cases hu : sec.kind = SectionKind.unloaded
    · rw [if_pos hu]
      exact ⟨[], rfl⟩
    · rw [if_neg hu]
      by_cases he : addr = sec.end_
      · rw [if_pos he]
        exact ⟨_, rfl⟩
      · rw [if_neg he]
        rcases hk : sec.kind with _ | _ | _ | _ | _ | _ | _ | _ | _ | _ | _ | _ | _ | _
        all_goals dsimp only
        · exact ⟨_, rfl⟩
        · exact ⟨_, rfl⟩
        · rcases h32 hk with he' | hlen
          · exact absurd he' he
          · simp only [parse_pointer, if_pos hlen, Option.map_some]
            exact ⟨_, rfl⟩
        · rcases h64 hk with he' | hlen
          · exact absurd he' he
          · simp only [parse_pointer, if_pos hlen, Option.map_some]
            exact ⟨_, rfl⟩
        all_goals exact ⟨_, rfl⟩
  · intro hu
    rw [if_pos hu]

/-- A CString section mapped over `[0, 4)`, for the C1 witness. -/
def c1wSec : Section := ⟨".rodata", "r", SectionKind.cstring, 0, 4, [104, 105, 0, 33]⟩

def c1wProc : Processor :=
  { sections := [c1wSec]
    endianLittle := true
    instruction_by_addr := fun _ => none
    error_by_addr := fun _ => none
    symAt := fun _ => none
    max_instruction_width := 4
    readRecord := fun _ _ => none }

/-- C1, witness: the amended claim applied at the mapped address 1. -/
theorem C1_witness :
    section_by_addr c1wProc 1 = some c1wSec ∧ ∃ bs, parse_blocks c1wProc 1 = some bs := by
  refine ⟨by decide, ?_⟩
  exact (C1_amended c1wProc 1 c1wSec (by decide) (by decide) (by decide)).1

/-! Claim C5: the RawBytes block emitted in a Code section. -/

/-- A Code section over `[0, 8)` where the decoder recognizes nothing and a
symbol sits at address 4. -/
def c5Sec : Section := ⟨".text", "t", SectionKind.code, 0, 8, [1, 2, 3, 4, 5, 6, 7, 8]⟩

def c5Proc : Processor :=
  { sections := [c5Sec]
    endianLittle := true
    instruction_by_addr := fun _ => none
    error_by_addr := fun _ => none
    symAt := fun a => if a = 4 then some ⟨[⟨"lbl", colors.WHITE⟩]⟩ else none
    max_instruction_width := 4
    readRecord := fun _ _ => none }

/-- C5, evaluation at the failing input: querying the classifier at address
0 of a Code section holding a symbol at address 4 (and no instructions or
decode errors anywhere).  The claim - and the boundary analyzer, which does
put a boundary at 4 - require the RawBytes block to span `[0, 4)`, stopping
before the labeled address; but `parse_bytes` tests
`get_symbol_by_addr(addr, section)` (the fixed query address, suppressed at
the section start) instead of the scan cursor `baddr`, so the emitted
RawBytes block spans all of `[0, 8)`, across the label boundary that
`compute_block_boundaries` reports at 4. -/
theorem C5_code_bug :
    (c5Proc.symAt 4).isSome ∧
    parse_blocks c5Proc 0 =
      some [⟨0, BlockContent.sectionStart c5Sec⟩,
            ⟨0, BlockContent.bytes [1, 2, 3, 4, 5, 6, 7, 8]⟩] ∧
    compute_block_boundaries c5Proc = [0, 4, 8] := by decide

/-! Claim C6: the Pointer block's symbol resolution. -/

/-- A little-endian Ptr32 section over `[0x10, 0x18)`; the cell at `0x14`
holds the value `0x400`.  The Symbol Index has a function at address
`0x400` (the value) and none at `0x14` (the cell). -/
def c6Sec : Section :=
  ⟨".data.rel.ro", "d", SectionKind.ptr32, 0x10, 0x18,
    [0xaa, 0xbb, 0xcc, 0xdd, 0x00, 0x04, 0x00, 0x00]⟩

def c6Proc : Processor :=
  { sections := [c6Sec]
    endianLittle := true
    instruction_by_addr := fun _ => none
    error_by_addr := fun _ => none
    symAt := fun a => if a = 0x400 then some ⟨[⟨"target", colors.WHITE⟩]⟩ else none
    max_instruction_width := 4
    readRecord := fun _ _ => none }

/-- C6, counterexample: the claim says the emitted Pointer block carries the
Function the Symbol Index holds at the raw address just read (the value,
`0x400`), but the source resolves `get_symbol_by_addr(addr, section)` - the
pointer cell's own address - so at boundary `0x14` the block is
`Pointer{value := 0x400, symbol := none}` even though the index holds a
function at `0x400`. -/
theorem C6_counterexample :
    (c6Proc.symAt 0x400).isSome ∧
    parse_blocks c6Proc 0x14 = some [⟨0x14, BlockContent.pointer 0x400 none⟩] := by decide

/-- C6 (amended): for a boundary address of a Ptr32/Ptr64 section with a
full-width cell available, the classifier reads the fixed-width value per
the image's declared endianness and emits `Pointer{value, symbol}` where
`symbol` is the Function the Symbol Index holds at the boundary address
itself (the pointer cell's address, not the value read), the lookup being
suppressed - `none` - when that address equals the containing section's own
start. -/
theorem C6_amended (p : Processor) (addr : Nat) (sec : Section) (size : Nat)
    (_hsize : size = 4 ∨ size = 8)
    (hlen : (bytes_by_addr sec addr size).length = size) :
    parse_pointer p addr sec size =
      some ⟨addr, BlockContent.pointer
        (readEndian p.endianLittle (bytes_by_addr sec addr size))
        (if addr = sec.start then none else p.symAt addr)⟩ := by
  unfold parse_pointer get_symbol_by_addr
  rw [if_pos hlen]

/-- C6, witness: the amended claim evaluated on the same pointer section at
cell `0x14` and at the self-referential cell `0x10` (the section start,
where the lookup is suppressed). -/
theorem C6_witness :
    parse_pointer c6Proc 0x14 c6Sec 4 =
      some ⟨0x14, BlockContent.pointer 0x400 none⟩ ∧
    parse_pointer c6Proc 0x10 c6Sec 4 =
      some ⟨0x10, BlockContent.pointer 0xddccbbaa none⟩ := by
  constructor
  · rw [C6_amended c6Proc 0x14 c6Sec 4 (Or.inl rfl) (by decide)]
    decide
  · rw [C6_amended c6Proc 0x10 c6Sec 4 (Or.inl rfl) (by decide)]
    decide

/-! Claim C10: Got64 entries. -/

theorem sectionMarkers_content (p : Processor) (addr : Nat) :
    ∀ b ∈ sectionMarkers p addr,
      (∃ s, b.content = BlockContent.sectionStart s) ∨
      (∃ s, b.content = BlockContent.sectionEnd s) := by
  intro b hb
  unfold sectionMarkers at hb
  rcases hfs : List.find? (fun sec => decide (sec.start = addr)) p.sections with _ | st <;>
    rcases hfe : List.find? (fun sec => decide (sec.end_ = addr)) p.sections with _ | en <;>
      rw [hfs, hfe] at hb <;> dsimp only at hb
  · exact absurd hb (List.not_mem_nil b)
  · rw [List.mem_singleton] at hb
    subst hb
    exact Or.inr ⟨en, rfl⟩
  · rw [List.mem_singleton] at hb
    subst hb
    exact Or.inl ⟨st, rfl⟩
  · by_cases hempty : st.bytes.isEmpty
    · rw [if_pos hempty] at hb
      simp only [List.cons_append, List.nil_append, List.mem_cons,
        List.not_mem_nil, or_false] at hb
      rcases hb with rfl | rfl | rfl
      · exact Or.inr ⟨en, rfl⟩
      · exact Or.inl ⟨st, rfl⟩
      · exact Or.inr ⟨st, rfl⟩
    · rw [if_neg hempty] at hb
      simp only [List.append_nil, List.mem_cons, List.not_mem_nil, or_false] at hb
      rcases hb with rfl | rfl
      · exact Or.inr ⟨en, rfl⟩
      · exact Or.inl ⟨st, rfl⟩

theorem mem_stepAux (stop step : Nat) (hstep : 0 < step) :
    ∀ fuel addr a, stop - addr ≤ fuel →
      (a ∈ stepAux stop step fuel addr ↔ ∃ k, a = addr + step * k ∧ a < stop) := by
  intro fuel
  induction fuel with
  | zero =>
    intro addr a h
    rw [stepAux]
    simp only [List.not_mem_nil, false_iff]
    rintro ⟨k, rfl, hlt⟩
    omega
  | succ f ih =>
    intro addr a h
    rw [stepAux]
    by_cases hc : addr < stop
    · rw [if_pos ⟨hc, hstep⟩]
      rw [List.mem_cons, ih (addr + step) a (by omega)]
      constructor
      · rintro (rfl | ⟨k, rfl, hlt⟩)
        · exact ⟨0, by omega, hc⟩
        · exact ⟨k + 1, by ring_nf, hlt⟩
      · rintro ⟨k, rfl, hlt⟩
        cases k with
        | zero => exact Or.inl (by omega)
        | succ k' => exact Or.inr ⟨k', by ring_nf, hlt⟩
    · rw [if_neg (by tauto)]
      simp only [List.not_mem_nil, false_iff]
      rintro ⟨k, rfl, hlt⟩
      omega

theorem mem_stepBoundaries (stop step addr a : Nat) (hstep : 0 < step) :
    a ∈ stepBoundaries stop step addr ↔ ∃ k, a = addr + step * k ∧ a < stop := by
  unfold stepBoundaries
  exact mem_stepAux stop step hstep (stop - addr) addr a (le_refl _)

/-- C10 (as claimed): at every content boundary of a `Got64` section the
classifier emits a Got block whose `size` field is 4 - the same size it
records for `Got32` entries (`parse_blocks` passes a literal 4 to
`parse_got` in the `Got64` arm) - even though the boundary analyzer spaces
`Got64` boundaries 8 bytes apart (`start + 8 * k`). -/
theorem C10_got64 (p : Processor) (addr : Nat) (sec : Section)
    (hfind : section_by_addr p addr = some sec) (hk : sec.kind = SectionKind.got64)
    (hne : addr ≠ sec.end_) (hwf : sec.start ≤ sec.end_) :
    (∃ bs, parse_blocks p addr = some bs ∧
      (∃ sym, Block.mk addr (BlockContent.got 4 sym) ∈ bs) ∧
      (∀ b ∈ bs, ∀ sz sym, b.content = BlockContent.got sz sym → sz = 4)) ∧
    (sec.bytes.isEmpty = false →
      ∀ a, a ∈ compute_section_boundaries p sec ↔
        a = sec.end_ ∨ ∃ k, a = sec.start + 8 * k ∧ a < sec.end_) := by
  have hu : ¬ sec.kind = SectionKind.unloaded := by rw [hk]; intro h; cases h
  constructor
  · unfold parse_blocks
    rw [hfind]
    dsimp only
    rw [if_neg hu, if_neg hne, hk]
    dsimp only
    refine ⟨_, rfl, ?_, ?_⟩
    · exact ⟨_, List.mem_append_right _ (List.mem_singleton.mpr rfl)⟩
    · intro b hb sz sym hcontent
      rcases List.mem_append.mp hb with hm | hm
      · rcases sectionMarkers_content p addr b hm with ⟨s, hs⟩ | ⟨s, hs⟩ <;>
          rw [hs] at hcontent <;> cases hcontent
      · rw [List.mem_singleton] at hm
        subst hm
        cases hcontent
        rfl
  · intro hbytes a
    unfold compute_section_boundaries
    rw [if_neg (by rw [hk]; rintro (h | h) <;> cases h),
      if_neg (by rw [hbytes]; intro h; cases h), hk]
    dsimp only
    rw [List.mem_cons, List.mem_append, List.mem_singleton,
      mem_stepBoundaries sec.end_ 8 sec.start a (by omega)]
    constructor
    · rintro (rfl | ⟨k, rfl, hlt⟩ | rfl)
      · by_cases hse : sec.start < sec.end_
        · exact Or.inr ⟨0, by omega, hse⟩
        · left
          omega
      · exact Or.inr ⟨k, rfl, hlt⟩
      · exact Or.inl rfl
    · rintro (rfl | ⟨k, rfl, hlt⟩)
      · tauto
      · exact Or.inr (Or.inl ⟨k, rfl, hlt⟩)

/-- A Got64 section over `[0, 16)`, for the C10 witness. -/
def c10wSec : Section := ⟨".got", "g", SectionKind.got64, 0, 16, List.replicate 16 0⟩

def c10wProc : Processor :=
  { sections := [c10wSec]
    endianLittle := true
    instruction_by_addr := fun _ => none
    error_by_addr := fun _ => none
    symAt := fun _ => none
    max_instruction_width := 4
    readRecord := fun _ _ => none }

/-- C10, witness: at boundary 8 of the Got64 section (one 8-byte stride
from the start) the emitted Got block records size 4. -/
theorem C10_witness :
    (∃ bs, parse_blocks c10wProc 8 = some bs ∧
      ∃ sym, Block.mk 8 (BlockContent.got 4 sym) ∈ bs) ∧
    (8 : Nat) ∈ compute_section_boundaries c10wProc c10wSec := by
  have h := C10_got64 c10wProc 8 c10wSec (by decide) (by decide) (by decide) (by decide)
  constructor
  · obtain ⟨bs, h1, h2, _⟩ := h.1
    exact ⟨bs, h1, h2⟩
  · exact (h.2 (by decide) 8).mpr (Or.inr ⟨1, by decide, by decide⟩)

/-! Claim C2: the symbol index after construction. -/

/-- C2, counterexample: the claim says that after `parse_debug` (which also
synthesizes the entry-point Function) followed by `parse_imports` every
address occurs exactly once; but the source inserts the entry-point AFTER
the sort+dedup pass of `parse_debug`, and `parse_imports` re-sorts without
deduplicating - so an image whose native symbol table holds a symbol at the
entry-point address 5 ends with the address list `[5, 5]`. -/
theorem C2_counterexample :
    ((Index.parse_imports allReject ImportInput.macho
        (Index.parse_debug allReject [(5, "a")] 5 Index.new)).tree.map Prod.fst) = [5, 5] ∧
    ¬ ((Index.parse_imports allReject ImportInput.macho
        (Index.parse_debug allReject [(5, "a")] 5 Index.new)).tree.map Prod.fst).Nodup := by
  decide

/-- C2 (amended): after `parse_debug` followed by `parse_imports` the index
is sorted by address (the final re-sort guarantees it whatever the format),
and the sort+dedup stage inside `parse_debug` leaves the entries collected
from the symbol tables unique by address - strictly increasing - with one
entry retained per address; but the entry-point Function and the import
entries are inserted after that stage and never deduplicated, so the final
index can hold several entries at one address. -/
theorem C2_amended (sch : Schemes) (symbols : List (Nat × String)) (entrypoint : Nat)
    (inp : ImportInput) (idx : Index) :
    ((Index.parse_imports sch inp
        (Index.parse_debug sch symbols entrypoint idx)).tree.Pairwise
      (fun a b : Nat × Function => a.1 ≤ b.1)) ∧
    ((debugDedupStage
        (idx.tree ++ symbols.map (fun p => (p.1, Function.new (parser sch p.2) none)))).Pairwise
      (fun a b : Nat × Function => a.1 < b.1)) := by
  constructor
  · unfold Index.parse_imports
    dsimp only
    exact sorted_sortLe (fun k : Nat × Function => k.1) _
  · unfold debugDedupStage
    exact pairwise_dedupKeyed (fun k : Nat × Function => k.1) _
      (sorted_sortLe (fun k : Nat × Function => k.1) _)

/-! Claim C7: ELF JUMP_SLOT relocations. -/

/-- C7: every ELF dynamic relocation of kind `JUMP_SLOT` whose containing
section, symbol name and GOT cell resolve contributes to the index the
address obtained by reading the pointer-sized cell at the relocation's
offset from the section's own bytes (per the image's endianness) and
subtracting 6 (the source's `saturating_sub(6)`, which on `Nat` is plain
truncated subtraction). -/
theorem C7_jump_slot (sch : Schemes) (inp : ElfInput) (idx : Index)
    (relocs : List ElfReloc) (tbl : Nat → Option String) (r : ElfReloc)
    (i : Nat) (sec : ElfSec) (bytes : List Nat) (name : String)
    (hrelocs : inp.dynRelocs = some relocs) (htbl : inp.dynSymTable = some tbl)
    (hr : r ∈ relocs) (hkind : r.kind = RelocKind.jumpSlot) (htarget : r.target = some i)
    (hsec : elfFindSection inp.sections r.r_offset = some sec)
    (hname : tbl i = some name)
    (hdata : sec.data_range r.r_offset (if inp.is64 then 8 else 4) = some bytes) :
    (readEndian inp.littleEndian bytes - 6, Function.new (parser sch name) none) ∈
      (Index.parse_imports sch (ImportInput.elf inp) idx).tree := by
  unfold Index.parse_imports
  dsimp only
  rw [mem_sortLe]
  unfold Index.parse_elf_imports
  rw [hrelocs, htbl]
  dsimp only
  refine List.mem_append_right _ (List.mem_filterMap.mpr ⟨r, hr, ?_⟩)
  unfold elf_reloc_entry
  rw [htarget, hsec]
  dsimp only
  rw [hname, hkind]
  dsimp only
  rw [hdata]

/-- The concrete image of the spec's JUMP_SLOT example: a 64-bit
little-endian ELF whose one dynamic relocation sits at offset `0x2000`
inside a section whose GOT cell there holds `0x401006`. -/
def c7wInput : ElfInput :=
  { is64 := true
    littleEndian := true
    dynRelocs := some [⟨0x2000, RelocKind.jumpSlot, some 0⟩]
    sections := [⟨0x2000, 8, some [0x06, 0x10, 0x40, 0, 0, 0, 0, 0]⟩]
    dynSymTable := some (fun i => if i = 0 then some "f" else none) }

/-- C7, witness: the GOT cell holding `0x401006` yields the indexed address
`0x401000`. -/
theorem C7_witness :
    ((0x401000 : Nat), Function.new (parser allReject "f") none) ∈
      (Index.parse_imports allReject (ImportInput.elf c7wInput) Index.new).tree := by
  have h := C7_jump_slot allReject c7wInput Index.new
    [⟨0x2000, RelocKind.jumpSlot, some 0⟩] (fun i => if i = 0 then some "f" else none)
    ⟨0x2000, RelocKind.jumpSlot, some 0⟩ 0 ⟨0x2000, 8, some [0x06, 0x10, 0x40, 0, 0, 0, 0, 0]⟩
    [0x06, 0x10, 0x40, 0, 0, 0, 0, 0] "f"
    rfl rfl (by decide) rfl rfl (by decide) rfl (by decide)
  exact h

/-! Claim C8: PE import thunk paths. -/

/-- A PE image whose one import descriptor has `first_thunk` non-zero but
EQUAL to `original_first_thunk` (both `0x3000`): the source then follows
the hint path, not the bound path. -/
def c8cexInput : PeInput :=
  { thunk_size := 8
    base := 0x140000000
    descriptors := some [⟨"m.dll", 0x3000, 0x3000⟩]
    thunks := fun rva => if rva = 0x3000 then [⟨false, 100⟩] else []
    hint_name := fun a => if a = 100 then some (0x10, "f") else none }

/-- C8, counterexample: the claim says a descriptor with `first_thunk`
non-zero is followed along the bound path, resolving each import to the
thunk slot's RVA plus the image base (`0x3000 + 0x140000000 = 0x140003000`
here); but the source selects the hint path whenever the walked table
equals `original_first_thunk` - which also happens when `first_thunk`
equals it while non-zero - and resolves `hint + base = 0x140000010`. -/
theorem C8_counterexample :
    (⟨"m.dll", 0x3000, 0x3000⟩ : PeDescriptor).first_thunk ≠ 0 ∧
    ((Index.parse_imports allReject (ImportInput.pe c8cexInput) Index.new).tree.map
      Prod.fst) = [0x140000010] ∧
    (0x140003000 : Nat) ∉
      ((Index.parse_imports allReject (ImportInput.pe c8cexInput) Index.new).tree.map
        Prod.fst) := by
  decide

/-- C8 (amended): a PE import descriptor is followed along the bound
`first_thunk` path exactly when `first_thunk` is non-zero AND differs from
`original_first_thunk`; each of its imported functions then resolves to the
thunk slot's RVA (`first_thunk + k * thunk_size` for the k-th slot) plus
the image's relative address base.  Descriptors walked at
`original_first_thunk` (because `first_thunk` is zero or equal to it)
resolve to `hint + base` instead. -/
theorem C8_amended (sch : Schemes) (inp : PeInput) (idx : Index) :
    (∀ descs d k e hint name, inp.descriptors = some descs → d ∈ descs →
      d.first_thunk ≠ 0 → d.first_thunk ≠ d.original_first_thunk →
      (k, e) ∈ (inp.thunks d.first_thunk).enum → e.isOrdinal = false →
      inp.hint_name e.address = some (hint, name) →
      (d.first_thunk + k * inp.thunk_size + inp.base,
        Function.new (parser sch name) (some (peModuleToken d))) ∈
        (Index.parse_imports sch (ImportInput.pe inp) idx).tree) ∧
    (∀ descs d k e hint name, inp.descriptors = some descs → d ∈ descs →
      (d.first_thunk = 0 ∨ d.first_thunk = d.original_first_thunk) →
      (k, e) ∈ (inp.thunks d.original_first_thunk).enum → e.isOrdinal = false →
      inp.hint_name e.address = some (hint, name) →
      (hint + inp.base,
        Function.new (parser sch name) (some (peModuleToken d))) ∈
        (Index.parse_imports sch (ImportInput.pe inp) idx).tree) := by
  constructor
  · intro descs d k e hint name hdescs hd hft hne he hord hhn
    unfold Index.parse_imports
    dsimp only
    rw [mem_sortLe]
    unfold Index.parse_pe_imports
    rw [hdescs]
    dsimp only
    refine List.mem_append_right _ (List.mem_flatMap.mpr ⟨d, hd, ?_⟩)
    unfold pe_descriptor_entries
    rw [if_neg hft]
    refine List.mem_filterMap.mpr ⟨(k, e), he, ?_⟩
    unfold pe_thunk_entry
    rw [hord]
    dsimp only
    rw [hhn]
    dsimp only
    rw [if_neg hne]
    rfl
  · intro descs d k e hint name hdescs hd hft he hord hhn
    unfold Index.parse_imports
    dsimp only
    rw [mem_sortLe]
    unfold Index.parse_pe_imports
    rw [hdescs]
    dsimp only
    refine List.mem_append_right _ (List.mem_flatMap.mpr ⟨d, hd, ?_⟩)
    unfold pe_descriptor_entries
    have hthunk : (if d.first_thunk = 0 then d.original_first_thunk else d.first_thunk) =
        d.original_first_thunk := by
      rcases hft with h | h
      · rw [if_pos h]
      · by_cases hz : d.first_thunk = 0
        · rw [if_pos hz]
        · rw [if_neg hz, h]
    rw [hthunk]
    refine List.mem_filterMap.mpr ⟨(k, e), he, ?_⟩
    unfold pe_thunk_entry
    rw [hord]
    dsimp only
    rw [hhn]
    dsimp only
    rw [if_pos rfl]
    rfl

/-- The spec's bound-path example: `first_thunk = 0x3050` (distinct from
`original_first_thunk = 0`) under `relative_address_base = 0x140000000`. -/
def c8wInput : PeInput :=
  { thunk_size := 8
    base := 0x140000000
    descriptors := some [⟨"m.dll", 0, 0x3050⟩]
    thunks := fun rva => if rva = 0x3050 then [⟨false, 200⟩] else []
    hint_name := fun a => if a = 200 then some (7, "g") else none }

/-- C8, witness: the first slot of the bound `first_thunk` table at RVA
`0x3050` resolves to `0x140003050`. -/
theorem C8_witness :
    ((0x140003050 : Nat),
      Function.new (parser allReject "g") (some (peModuleToken ⟨"m.dll", 0, 0x3050⟩))) ∈
      (Index.parse_imports allReject (ImportInput.pe c8wInput) Index.new).tree := by
  exact (C8_amended allReject c8wInput Index.new).1 [⟨"m.dll", 0, 0x3050⟩]
    ⟨"m.dll", 0, 0x3050⟩ 0 ⟨false, 200⟩ 7 "g" rfl (by decide) (by decide) (by decide)
    (by decide) rfl rfl

/-! Claim C9: the demangling cascade. -/

/-- C9, counterexample: the claim says that when every scheme rejects the
suffix-stripped input the demangler returns the ORIGINAL string as a single
token; but the source's fallback is `TokenStream::simple(s)` where `s` is
the suffix-STRIPPED string: on input "foo$plt" (whose stripped form "foo"
every scheme rejects - plain identifiers match none of the four grammars)
it returns the single token "foo", not "foo$plt". -/
theorem C9_counterexample :
    parser allReject "foo$plt" = TokenStream.simple "foo" ∧
    parser allReject "foo$plt" ≠ TokenStream.simple "foo$plt" := by
  constructor
  · rfl
  · decide

/-- C9 (amended): the demangler first strips trailing suffixes `$got`, then
`$plt`, then `$pltgot`, each at most once in that order applied to the
previous result (so a name ending in `$plt$got` loses both suffixes), then
attempts legacy-Rust, Itanium C++/C, versioned (v0) Rust and MSVC
demangling in that fixed order, returning the first scheme's result; if
every scheme rejects the stripped input it returns the suffix-STRIPPED
string (not the original) as a single token, and never fails. -/
theorem C9_amended (sch : Schemes) (s : String) :
    (∀ r, sch.rust_legacy (stripDecorations s) = some r → parser sch s = r) ∧
    (sch.rust_legacy (stripDecorations s) = none →
      ∀ r, sch.itanium (stripDecorations s) = some r → parser sch s = r) ∧
    (sch.rust_legacy (stripDecorations s) = none →
      sch.itanium (stripDecorations s) = none →
      ∀ r, sch.rust (stripDecorations s) = some r → parser sch s = r) ∧
    (sch.rust_legacy (stripDecorations s) = none →
      sch.itanium (stripDecorations s) = none →
      sch.rust (stripDecorations s) = none →
      ∀ r, sch.msvc (stripDecorations s) = some r → parser sch s = r) ∧
    (sch.rust_legacy (stripDecorations s) = none →
      sch.itanium (stripDecorations s) = none →
      sch.rust (stripDecorations s) = none →
      sch.msvc (stripDecorations s) = none →
      parser sch s = TokenStream.simple (stripDecorations s)) := by
  refine ⟨?_, ?_, ?_, ?_, ?_⟩
  · intro r h1
    unfold parser
    dsimp only
    rw [h1]
  · intro h1 r h2
    unfold parser
    dsimp only
    rw [h1, h2]
  · intro h1 h2 r h3
    unfold parser
    dsimp only
    rw [h1, h2, h3]
  · intro h1 h2 h3 r h4
    unfold parser
    dsimp only
    rw [h1, h2, h3, h4]
  · intro h1 h2 h3 h4
    unfold parser
    dsimp only
    rw [h1, h2, h3, h4]

/-- C9, witness: the amended claim at the all-rejecting schemes on
"foo$plt$got" - both the `$got` and then the `$plt` suffix are stripped,
and the fallback token carries the doubly-stripped string "foo". -/
theorem C9_witness :
    stripDecorations "foo$plt$got" = "foo" ∧
    parser allReject "foo$plt$got" = TokenStream.simple "foo" := by
  refine ⟨by decide, ?_⟩
  have h := (C9_amended allReject "foo$plt$got").2.2.2.2 rfl rfl rfl rfl
  rw [h]
  decide
